import Mathlib

/- A verification development for the package indexing and dependency-graph
   engine of `src/scanner.py` (VaM-Package-Manager).

   Modelling conventions of the shallow embedding:
   * Python strings are `List Char` (`Str`); Lean string literals are turned
     into that type with `str`.  All the Python string operations the scanner
     uses (`split(".")`, `".".join`, `isdigit`, `lower`, `strip`, substring
     containment) are defined structurally below so that every definition
     evaluates inside the kernel.
   * Python sets of strings are lists; insertion is modelled by `dedupFirst`
     (first-insertion order, no duplicates), and every property proved about
     them is a property of their membership, which does not depend on
     iteration order.
   * Python dicts are association lists read through `assocLookup`
     (`dict.get`), with assignment modelled by binding shadowing.
   * `float` values coming from `os.stat` (`st_mtime`) are rationals;
     `st_size` is a natural number. -/

namespace VaMScanner

/-- Python strings, modelled by their character lists. -/
abbrev Str := List Char

/-- Shorthand turning a Lean string literal into the model type. -/
def str (s : String) : Str := s.toList

/-- Python `s.split(".")`. -/
def splitDot : Str → List Str
  | [] => [[]]
  | c :: rest =>
    let r := splitDot rest
    if c = '.' then [] :: r
    else
      match r with
      | [] => [[c]]
      | h :: t => (c :: h) :: t

/-- Python `".".join(parts)`. -/
def joinDot : List Str → Str
  | [] => []
  | [p] => p
  | p :: rest => p ++ '.' :: joinDot rest

/-- Python `s.isdigit()` (ASCII digits; the empty string is not a digit string). -/
def pyIsDigit (s : Str) : Bool := !s.isEmpty && s.all Char.isDigit

/-- Python `int(s)` on a digit string. -/
def pyInt (s : Str) : Nat := s.foldl (fun n c => 10 * n + (c.toNat - 48)) 0

/-- Python `s.lower()`. -/
def pyLower (s : Str) : Str := s.map Char.toLower

/-- Python `s.strip()`. -/
def pyStrip (s : Str) : Str :=
  ((s.dropWhile Char.isWhitespace).reverse.dropWhile Char.isWhitespace).reverse

/-- Python `needle in hay` on strings: substring containment. -/
def pySubstrIn (needle hay : Str) : Bool :=
  (List.range (hay.length + 1)).any fun i =>
    decide (List.take needle.length (hay.drop i) = needle)

/-- Python `parts[-1]`; every call site below applies it to the result of a
    `split`, which is never the empty list. -/
def lastPart (parts : List Str) : Str := parts.getLastD []

/-- The final dot-segment of an id or reference (`parts[-1]` after split). -/
def verOf (s : Str) : Str := lastPart (splitDot s)

/-- The `Author.PackageName` base (`".".join(parts[:-1])` after split). -/
def baseOf (s : Str) : Str := joinDot (splitDot s).dropLast

/-- `is_valid_package_ref` (scanner.py 17-46).  Note that `author in
    ("entries")` in the source is a substring test against the string
    `"entries"` — `("entries")` is a parenthesised string, not a tuple — which
    the embedding reproduces with `pySubstrIn`. -/
def is_valid_package_ref (ref : Str) : Bool :=
  let parts := splitDot (pyStrip ref)
  if parts.length < 3 then false else
  let author := pyStrip (parts.headD [])
  let pkg := joinDot ((parts.drop 1).dropLast)
  let version := lastPart parts
  if ¬ (pyIsDigit version = true ∨ pyLower version = str "latest") then false
  else if author.length < 2 then false
  else if pyIsDigit author = true then false
  else if (author.headD ' ' = 'v' ∨ author.headD ' ' = '-')
          ∧ (author.drop 1).all (fun c => c.isDigit || c == '.') = true then false
  else if pySubstrIn author (str "entries") = true then false
  else if pkg = [] ∨ ¬ (pkg.headD ' ').isAlpha = true then false
  else true

/-- `Path(filename).stem`: the filename with its final extension removed
    (names without a dot are returned unchanged; the dot-file corner of
    `pathlib` does not arise for `*.var` filenames). -/
def pathStem (filename : Str) : Str :=
  let parts := splitDot filename
  if parts.length ≤ 1 then filename else joinDot parts.dropLast

/-- `parse_package_name` (scanner.py 49-60). -/
def parse_package_name (filename : Str) : Option Str :=
  let name := pathStem filename
  let parts := splitDot name
  if parts.length < 3 then none else
  let author := parts.headD []
  let pkg := joinDot ((parts.drop 1).dropLast)
  let version := lastPart parts
  if ¬ (pyIsDigit version = true ∨ pyLower version = str "latest") then none
  else
    let version_norm := if pyLower version = str "latest" then str "latest" else version
    some (author ++ '.' :: (pkg ++ '.' :: version_norm))

/-- `latest_alias` (scanner.py 131-135); the empty string on a non-digit
    version. -/
def latest_alias (pid : Str) : Str :=
  let parts := splitDot pid
  if parts.length < 3 ∨ ¬ pyIsDigit (lastPart parts) = true then []
  else joinDot parts.dropLast ++ str ".latest"

/-- Stable insertion: `x` goes after every existing `y` with `le y x`. -/
def insSorted (le : α → α → Bool) (x : α) : List α → List α
  | [] => [x]
  | y :: ys => if le y x then y :: insSorted le x ys else x :: y :: ys

/-- Python `sorted` / `list.sort`: a stable sort with respect to `le`. -/
def pySorted (le : α → α → Bool) (l : List α) : List α :=
  l.foldl (fun acc x => insSorted le x acc) []

/-- Code-point comparison of strings, Python's `<=` on `str`. -/
def strLE : Str → Str → Bool
  | [], _ => true
  | _ :: _, [] => false
  | a :: as, b :: bs => if a = b then strLE as bs else decide (a.toNat ≤ b.toNat)

/-- Python `sorted` on a collection of strings. -/
def sortedStrs (l : List Str) : List Str := pySorted strLE l

/-- Accumulation into a Python `set`, keeping first-insertion order. -/
def dedupFirst [DecidableEq α] (l : List α) : List α :=
  l.foldl (fun acc x => if x ∈ acc then acc else acc ++ [x]) []

/-- The candidate loop of `resolve_ref` (scanner.py 109-118): all installed
    versions for the ref's `Author.PackName` base, as `(int version, pid)`
    pairs in index order. -/
def resolveCandidates (ref : Str) (packages : List Str) : List (ℕ × Str) :=
  packages.filterMap fun pid =>
    if (splitDot pid).length < 3 then none
    else if baseOf pid = baseOf ref ∧ pyIsDigit (verOf pid) = true
    then some (pyInt (verOf pid), pid)
    else none

/-- `resolve_ref` (scanner.py 97-124); `packages` stands for the index dict
    `self.packages`, which the function reads only through its keys.  The
    final `candidates.sort(key=..., reverse=True)` is Python's stable sort,
    modelled by the stable `pySorted` on the descending key order. -/
def resolve_ref (ref : Str) (packages : List Str) : Str :=
  if (splitDot ref).length < 3 then ref else
  if ref ∈ packages then ref else
  match resolveCandidates ref packages with
  | [] => ref
  | _ :: _ =>
    ((pySorted (fun a b => decide (b.1 ≤ a.1)) (resolveCandidates ref packages)).headD
      (0, ref)).2

/-- A row of the `package_refs` table (`filename` is the primary key). -/
structure CacheRow where
  filename : Str
  mtime : ℚ
  size : ℕ
  refs : List Str

/-- The cache database state. -/
abbrev CacheDB := List CacheRow

/-- `PackageCache.lookup` (scanner.py 245-259) on an open cache; `mtime` and
    `size` are the live archive's `path.stat()` values. -/
def cache_lookup (db : CacheDB) (filename : Str) (mtime : ℚ) (size : ℕ) :
    Option (List Str) :=
  match db.find? (fun r => decide (r.filename = filename)) with
  | none => none
  | some row =>
    if |row.mtime - mtime| < 1/1000 ∧ row.size = size then some row.refs else none

/-- `PackageCache.store` (scanner.py 261-276): `INSERT OR REPLACE` of the row
    keyed by the basename, persisting `json.dumps(sorted(refs))`. -/
def cache_store (db : CacheDB) (filename : Str) (mtime : ℚ) (size : ℕ)
    (refs : List Str) : CacheDB :=
  ⟨filename, mtime, size, sortedStrs refs⟩ ::
    db.filter (fun r => decide (¬ r.filename = filename))

/-- JSON values, as far as `meta.json` handling observes them. -/
inductive Json where
  | null
  | bool (b : Bool)
  | num (n : Int)
  | jstr (s : Str)
  | arr (elems : List Json)
  | obj (fields : List (Str × Json))

/-- Python `dict.get` over an association list (first binding wins, as with
    shadowing-based assignment). -/
def assocLookup {α : Type} : List (Str × α) → Str → Option α
  | [], _ => none
  | (k, v) :: rest, key => if k = key then some v else assocLookup rest key

/-- The `isinstance(key, str)` filter of the extraction loop. -/
def jsonStr : Json → Option Str
  | Json.jstr s => some s
  | _ => none

/-- The `.latest` normalisation applied to each manifest key
    (scanner.py 167-170). -/
def normalizeLatest (key : Str) : Str :=
  let parts := splitDot key
  if 3 ≤ parts.length ∧ pyLower (lastPart parts) = str "latest"
  then joinDot parts.dropLast ++ str ".latest" else key

/-- An archive as the scanner observes it: either the ZIP cannot be opened or
    read, or it yields the parsed `meta.json` dict (when present and well
    formed) and the reference strings scraped from its text entries.
    `textRefs` abstracts the per-entry regex loop of `extract_refs_from_var`
    (scanner.py 191-209): the trimmed, `latest`-normalised matches of
    `PACKAGE_REF_PATTERN` that pass `is_valid_package_ref`. -/
inductive Archive where
  | unreadable
  | readable (meta : Option (List (Str × Json))) (textRefs : List Str)

/-- `read_meta_json` (scanner.py 138-146): `None` on any failure. -/
def read_meta_json : Archive → Option (List (Str × Json))
  | Archive.unreadable => none
  | Archive.readable meta _ => meta

/-- `extract_refs_from_meta` (scanner.py 149-176). `selfId` is
    `parse_package_name(var_path.name)`. -/
def extract_refs_from_meta (selfId : Option Str) (a : Archive) : List Str :=
  match read_meta_json a with
  | none => []
  | some m =>
    if m.isEmpty then []
    else
      let raw_deps := (assocLookup m (str "dependencies")).getD (Json.obj [])
      match raw_deps with
      | Json.obj fields =>
        dedupFirst (((fields.map Prod.fst).map normalizeLatest).filter
          (fun k => decide (¬ some k = selfId)))
      | Json.arr elems =>
        dedupFirst (((elems.filterMap jsonStr).map normalizeLatest).filter
          (fun k => decide (¬ some k = selfId)))
      | _ => []

/-- `extract_refs_from_var` (scanner.py 179-212): the archive-level `except`
    yields the empty set; otherwise the scraped refs minus the archive's own
    id. -/
def extract_refs_from_var (selfId : Option Str) : Archive → List Str
  | Archive.unreadable => []
  | Archive.readable _ textRefs =>
    dedupFirst (textRefs.filter (fun r => decide (¬ some r = selfId)))

/-- One iteration of the indexing loop of `VaMPackageManager.__init__`
    (scanner.py 322-333): cache lookup, extraction with manifest precedence on
    a miss, cache store of the freshly scanned refs.  `pid` is the package's
    id (`parse_package_name` of its filename, hence also the `self_id` used by
    both extraction helpers); `name`, `mtime` and `size` are `path.name` and
    the `path.stat()` fields. -/
def indexArchive (cache : CacheDB) (pid : Str) (a : Archive) (name : Str)
    (mtime : ℚ) (size : ℕ) : List Str × CacheDB :=
  match cache_lookup cache name mtime size with
  | some refs => (refs, cache)
  | none =>
    let meta_refs := extract_refs_from_meta (some pid) a
    let refs :=
      if ¬ meta_refs.isEmpty = true then meta_refs.filter (fun r => decide (¬ r = pid))
      else (extract_refs_from_var (some pid) a).filter (fun r => decide (¬ r = pid))
    (refs, cache_store cache name mtime size refs)

/-- `self._deps_cache`: the dict from installed id to its set of direct,
    resolved dependency strings. -/
abbrev DepsCache := List (Str × List Str)

/-- `self._deps_cache.get(pid, set())`. -/
def depsGet (dc : DepsCache) (pid : Str) : List Str := (assocLookup dc pid).getD []

/-- The keys of `self.packages` — identical to the keys of `_deps_cache`,
    which `__init__` fills for exactly the scanned packages. -/
def packagesOf (dc : DepsCache) : List Str := dc.map Prod.fst

/-- Lines 338-342 of `__init__`: for every package, each extracted ref other
    than the package itself is resolved against the index and collected into
    the `direct` set. -/
def buildDepsCache (packages : List Str) (refs : Str → List Str) : DepsCache :=
  packages.map fun pid =>
    (pid, dedupFirst (((refs pid).filter (fun r => decide (¬ r = pid))).map
      (fun r => resolve_ref r packages)))

/-- The `while queue` worklist loop shared by `get_dependencies` (355-365) and
    `get_dependents` (384-393), over an adjacency function `adj`
    (`_deps_cache.get` resp. `rdeps.get`).  `fuel` only forces termination:
    every call below passes enough fuel for the loop to drain its queue (see
    `bfs_closure`), and the visited set a drained run computes is the same
    whichever element `pop` removes, so the embedding fixes the head. -/
def bfs (adj : Str → List Str) : ℕ → List Str → List Str → List Str
  | 0, visited, _ => visited
  | _ + 1, visited, [] => visited
  | fuel + 1, visited, dep :: queue =>
    if dep ∈ visited then bfs adj fuel visited queue
    else bfs adj fuel (dep :: visited)
      (queue ++ (adj dep).filter (fun s => decide (¬ s ∈ dep :: visited)))

/-- Fuel that always outlasts the worklist loop over a node universe `univ`
    (every queue element and every adjacency image stays inside `univ`). -/
def bfsFuel (univ : List Str) (queue : List Str) : ℕ :=
  (univ.length + 1) * univ.length + queue.length + 1

/-- All strings occurring in some deps set: the forward traversal never
    enqueues anything else. -/
def depsUniv (dc : DepsCache) : List Str := (dc.map Prod.snd).flatten

/-- `get_dependencies` (scanner.py 348-365). -/
def get_dependencies (dc : DepsCache) (pid : Str) (recursive : Bool) : List Str :=
  if ¬ pid ∈ packagesOf dc then [] else
  if ¬ recursive = true then depsGet dc pid
  else bfs (depsGet dc) (bfsFuel (depsUniv dc) (depsGet dc pid)) [] (depsGet dc pid)

/-- `rdeps.get(d, [])` for the reverse index built by `_build_reverse_deps`
    (scanner.py 369-377): every installed pid having `d` among its direct
    deps. -/
def rdepsGet (dc : DepsCache) (d : Str) : List Str :=
  (packagesOf dc).filter (fun p => decide (d ∈ depsGet dc p))

/-- The seed frontier of `get_dependents` (scanner.py 381-382):
    `set(rdeps.get(pid, [])) | set(rdeps.get(alias, []) if alias else [])`. -/
def rdepsSeed (dc : DepsCache) (pid : Str) : List Str :=
  rdepsGet dc pid ++
    (if ¬ latest_alias pid = [] then rdepsGet dc (latest_alias pid) else [])

/-- `get_dependents` (scanner.py 379-393). -/
def get_dependents (dc : DepsCache) (pid : Str) : List Str :=
  bfs (rdepsGet dc) (bfsFuel (packagesOf dc) (rdepsSeed dc pid)) [] (rdepsSeed dc pid)

/-- A `best_version` value: `float("inf")` or an installed integer version. -/
inductive BestVer where
  | inf
  | fin (v : ℕ)
deriving DecidableEq

/-- `int(ver) < best` where `best` may be `float("inf")`. -/
def ltBest (v : ℕ) : BestVer → Bool
  | BestVer.inf => true
  | BestVer.fin w => decide (v < w)

/-- One step of the `best_version` accumulation of `get_dep_tree`
    (scanner.py 399-414); dict assignment is modelled by shadowing, and
    `baseOf`/`verOf` are the loop's `base`/`ver` locals. -/
def bestStep (best : List (Str × BestVer)) (dep : Str) : List (Str × BestVer) :=
  if (splitDot dep).length < 3 then best
  else if verOf dep = str "latest" then (baseOf dep, BestVer.inf) :: best
  else if pyIsDigit (verOf dep) = true then
    match assocLookup best (baseOf dep) with
    | none => (baseOf dep, BestVer.fin (pyInt (verOf dep))) :: best
    | some BestVer.inf => best
    | some (BestVer.fin w) =>
      if w < pyInt (verOf dep) then (baseOf dep, BestVer.fin (pyInt (verOf dep))) :: best
      else best
  else best

/-- The `best_version` dict over the full transitive closure (399-414). -/
def bestVersionOf (deps : List Str) : List (Str × BestVer) := deps.foldl bestStep []

/-- `is_superseded` (scanner.py 416-429). -/
def is_superseded (best : List (Str × BestVer)) (dep : Str) : Bool :=
  if (splitDot dep).length < 3 then false
  else if verOf dep = str "latest" then false
  else if ¬ pyIsDigit (verOf dep) = true then false
  else
    match assocLookup best (baseOf dep) with
    | none => false
    | some b => ltBest (pyInt (verOf dep)) b

/-- The recursive `walk` of `get_dep_tree` (scanner.py 432-441).  `fuel`
    equals `max_depth + 1 - depth`, so `fuel = 0` is exactly the
    `depth > max_depth` guard. -/
def walk (dc : DepsCache) (sup : Str → Bool) : ℕ → ℕ → Str → List Str → List (Str × ℕ × Str)
  | 0, _, _, _ => []
  | fuel + 1, depth, node, visited =>
    ((sortedStrs (depsGet dc node)).map fun dep =>
      if sup dep = true then []
      else (dep, depth, node) ::
        (if dep ∈ visited then [] else walk dc sup fuel (depth + 1) dep (visited ++ [dep]))).flatten

/-- `get_dep_tree` (scanner.py 397-442). -/
def get_dep_tree (dc : DepsCache) (pid : Str) (maxDepth : ℕ) : List (Str × ℕ × Str) :=
  let all_deps := get_dependencies dc pid true
  walk dc (is_superseded (bestVersionOf all_deps)) maxDepth 1 pid [pid]

/-- The dict `plan_delete` returns (scanner.py 541-548). -/
structure DeletePlan where
  target : Str
  dependents : List Str
  to_delete : List Str
  keep_deps : List (Str × List Str)
  delete_deps : List Str
  total_mb : ℚ
deriving Inhabited

/-- The body of the `for dep in self.get_dependencies(pid, recursive=True)`
    loop of `plan_delete` (scanner.py 527-535), acting on the accumulator
    `(to_delete, keep_deps, delete_deps_list)`. -/
def planStep (dc : DepsCache) (pid : Str)
    (acc : List Str × List (Str × List Str) × List Str) (dep : Str) :
    List Str × List (Str × List Str) × List Str :=
  if ¬ dep ∈ packagesOf dc then acc
  else
    let others := (get_dependents dc dep).filter (fun x => decide (¬ x = pid))
    if ¬ others.isEmpty = true
    then (acc.1, acc.2.1 ++ [(dep, sortedStrs others)], acc.2.2)
    else (acc.1 ++ [dep], acc.2.1, acc.2.2 ++ [dep])

/-- `plan_delete` (scanner.py 519-548); `sz` abstracts `path.stat().st_size`
    per installed id, and the `{}` returned for an uninstalled target is
    `none`. -/
def plan_delete (dc : DepsCache) (sz : Str → ℕ) (pid : Str) (with_deps : Bool) :
    Option DeletePlan :=
  if ¬ pid ∈ packagesOf dc then none else
  let dependents := get_dependents dc pid
  let folded :=
    if with_deps = true
    then (get_dependencies dc pid true).foldl (planStep dc pid) ([pid], [], [])
    else ([pid], [], [])
  let total_mb : ℚ :=
    (((folded.1.filter (fun p => decide (p ∈ packagesOf dc))).map
      (fun p => (sz p : ℚ) / (1024 * 1024))).sum)
  some
    { target := pid
      dependents := sortedStrs dependents
      to_delete := sortedStrs folded.1
      keep_deps := folded.2.1
      delete_deps := sortedStrs folded.2.2
      total_mb := total_mb }

/-- The validity predicate exactly as the specification words it (spec §3 and
    §4.1): at least three dot-segments; Version a digit string or `latest`
    case-insensitively; PackageName non-empty with an alphabetic first
    character; Author of length at least 2, not all digits, not `v` or `-`
    followed only by digits and dots, and not the reserved token `entries`
    (the exact token, not a substring). -/
def is_valid_ref_spec (ref : Str) : Bool :=
  let parts := splitDot (pyStrip ref)
  if parts.length < 3 then false else
  let author := pyStrip (parts.headD [])
  let pkg := joinDot ((parts.drop 1).dropLast)
  let version := lastPart parts
  decide (pyIsDigit version = true ∨ pyLower version = str "latest")
  && decide (2 ≤ author.length)
  && !pyIsDigit author
  && !(decide ((author.headD ' ' = 'v' ∨ author.headD ' ' = '-')
        ∧ (author.drop 1).all (fun c => c.isDigit || c == '.') = true))
  && !(decide (author = str "entries"))
  && (decide (¬ pkg = []) && (pkg.headD ' ').isAlpha)

/-- Reachability along `adj` from a seed set: the property the worklist loop
    of `bfs` computes (a seed element, or any `adj`-successor of a reachable
    element). -/
inductive ReachSet (adj : Str → List Str) (seed : List Str) : Str → Prop
  | base {x : Str} : x ∈ seed → ReachSet adj seed x
  | step {y x : Str} : ReachSet adj seed y → x ∈ adj y → ReachSet adj seed x

/-- Order on `best_version` values: `float("inf")` on top, integers by `≤`. -/
def bestLE : BestVer → BestVer → Prop
  | _, BestVer.inf => True
  | BestVer.inf, BestVer.fin _ => False
  | BestVer.fin a, BestVer.fin b => a ≤ b

/-- Example index with a dependency chain `Aa.P.1 → Bb.X.1 → Cc.D.1`. -/
def chainDC : DepsCache :=
  buildDepsCache [str "Aa.P.1", str "Bb.X.1", str "Cc.D.1"]
    (fun p => if p = str "Aa.P.1" then [str "Bb.X.1"]
              else if p = str "Bb.X.1" then [str "Cc.D.1"] else [])

/-- Example index of the shared-library scenario (spec §8 S6): two packages
    both depend on `Ll.Lib.1`. -/
def sharedDC : DepsCache :=
  buildDepsCache [str "Aa.P.1", str "Bb.Q.1", str "Ll.Lib.1"]
    (fun p => if p = str "Aa.P.1" then [str "Ll.Lib.1"]
              else if p = str "Bb.Q.1" then [str "Ll.Lib.1"] else [])

/-- Example index in which the floating alias `Bob.X.latest` is itself an
    installed package (a legal `Bob.X.latest.var` filename) next to a digit
    version of the same base. -/
def aliasDC : DepsCache :=
  buildDepsCache [str "Aa.P.1", str "Bob.X.latest", str "Bob.X.5"]
    (fun p => if p = str "Aa.P.1" then [str "Bob.X.latest"] else [])

/-- Example index with two installed versions of one base below one root. -/
def versionsDC : DepsCache :=
  buildDepsCache [str "Aa.P.1", str "Cc.R.1", str "Cc.R.3"]
    (fun p => if p = str "Aa.P.1" then [str "Cc.R.1", str "Cc.R.3"] else [])

/-- Example archive: a manifest declaring one dependency, no text refs. -/
def exArchiveC6 : Archive :=
  Archive.readable
    (some [(str "dependencies", Json.obj [(str "Bb.X.1", Json.null)])]) []

/- ──────────────────────────  helper lemmas  ────────────────────────── -/

theorem mem_insSorted {α : Type} (le : α → α → Bool) (x y : α) (l : List α) :
    x ∈ insSorted le y l ↔ x = y ∨ x ∈ l := by
  induction l with
  | nil => simp [insSorted]
  | cons z zs ih =>
    simp only [insSorted]
    split
    · simp only [List.mem_cons, ih]
      tauto
    · simp [List.mem_cons]

theorem mem_foldl_insSorted {α : Type} (le : α → α → Bool) (l acc : List α) (x : α) :
    x ∈ l.foldl (fun acc y => insSorted le y acc) acc ↔ x ∈ acc ∨ x ∈ l := by
  induction l generalizing acc with
  | nil => simp
  | cons z zs ih =>
    simp only [List.foldl_cons, ih, mem_insSorted, List.mem_cons]
    tauto

theorem mem_pySorted {α : Type} (le : α → α → Bool) (l : List α) (x : α) :
    x ∈ pySorted le l ↔ x ∈ l := by
  simp [pySorted, mem_foldl_insSorted]

theorem mem_sortedStrs (l : List Str) (x : Str) : x ∈ sortedStrs l ↔ x ∈ l :=
  mem_pySorted strLE l x

theorem pairwise_insSorted {α : Type} (le : α → α → Bool)
    (htrans : ∀ a b c, le a b = true → le b c = true → le a c = true)
    (htot : ∀ a b, le a b = true ∨ le b a = true)
    (x : α) (l : List α) (h : l.Pairwise (fun a b => le a b = true)) :
    (insSorted le x l).Pairwise (fun a b => le a b = true) := by
  induction l with
  | nil => simp [insSorted]
  | cons y ys ih =>
    rw [List.pairwise_cons] at h
    simp only [insSorted]
    split
    · rename_i hyx
      refine List.Pairwise.cons ?_ (ih h.2)
      intro z hz
      rcases (mem_insSorted le z x ys).mp hz with rfl | hz
      · exact hyx
      · exact h.1 z hz
    · rename_i hyx
      have hxy : le x y = true := by
        rcases htot x y with h' | h'
        · exact h'
        · exact absurd h' hyx
      refine List.Pairwise.cons ?_ (List.Pairwise.cons h.1 h.2)
      intro z hz
      rcases List.mem_cons.mp hz with rfl | hz
      · exact hxy
      · exact htrans x y z hxy (h.1 z hz)

theorem pairwise_pySorted {α : Type} (le : α → α → Bool)
    (htrans : ∀ a b c, le a b = true → le b c = true → le a c = true)
    (htot : ∀ a b, le a b = true ∨ le b a = true)
    (l : List α) :
    (pySorted le l).Pairwise (fun a b => le a b = true) := by
  suffices h : ∀ acc : List α, acc.Pairwise (fun a b => le a b = true) →
      (l.foldl (fun acc x => insSorted le x acc) acc).Pairwise (fun a b => le a b = true) by
    exact h [] (by simp)
  induction l with
  | nil => intro acc hacc; simpa using hacc
  | cons z zs ih =>
    intro acc hacc
    exact ih _ (pairwise_insSorted le htrans htot z acc hacc)

theorem mem_foldl_setAdd {α : Type} [DecidableEq α] (l acc : List α) (x : α) :
    x ∈ l.foldl (fun acc y => if y ∈ acc then acc else acc ++ [y]) acc ↔
      x ∈ acc ∨ x ∈ l := by
  induction l generalizing acc with
  | nil => simp
  | cons z zs ih =>
    simp only [List.foldl_cons]
    rw [ih]
    by_cases hz : z ∈ acc
    · rw [if_pos hz]
      simp only [List.mem_cons]
      constructor
      · rintro (h | h)
        · exact Or.inl h
        · exact Or.inr (Or.inr h)
      · rintro (h | h | h)
        · exact Or.inl h
        · subst h; exact Or.inl hz
        · exact Or.inr h
    · rw [if_neg hz]
      simp only [List.mem_append, List.mem_cons, List.mem_singleton]
      tauto

theorem mem_dedupFirst {α : Type} [DecidableEq α] (l : List α) (x : α) :
    x ∈ dedupFirst l ↔ x ∈ l := by
  simp [dedupFirst, mem_foldl_setAdd]

theorem assocLookup_map_self {α : Type} (f : Str → α) (packages : List Str) (pid : Str)
    (h : pid ∈ packages) :
    assocLookup (packages.map fun p => (p, f p)) pid = some (f pid) := by
  induction packages with
  | nil => cases h
  | cons q qs ih =>
    simp only [List.map_cons, assocLookup]
    by_cases hq : q = pid
    · subst hq; simp
    · rw [if_neg hq]
      rcases List.mem_cons.mp h with h1 | h1
      · exact absurd h1.symm hq
      · exact ih h1

theorem assocLookup_mem_keys {α : Type} (l : List (Str × α)) (k : Str) (v : α)
    (h : assocLookup l k = some v) : k ∈ l.map Prod.fst := by
  induction l with
  | nil => simp [assocLookup] at h
  | cons p rest ih =>
    obtain ⟨pk, pv⟩ := p
    simp only [assocLookup] at h
    by_cases hk : pk = k
    · simp only [List.map_cons, List.mem_cons]
      exact Or.inl hk.symm
    · rw [if_neg hk] at h
      simp only [List.map_cons, List.mem_cons]
      exact Or.inr (ih h)

theorem assocLookup_mem_values {α : Type} (l : List (Str × α)) (k : Str) (v : α)
    (h : assocLookup l k = some v) : v ∈ l.map Prod.snd := by
  induction l with
  | nil => simp [assocLookup] at h
  | cons p rest ih =>
    obtain ⟨pk, pv⟩ := p
    simp only [assocLookup] at h
    by_cases hk : pk = k
    · rw [if_pos hk] at h
      simp only [List.map_cons, List.mem_cons]
      exact Or.inl (Option.some_inj.mp h).symm
    · rw [if_neg hk] at h
      simp only [List.map_cons, List.mem_cons]
      exact Or.inr (ih h)

theorem depsGet_subset_depsUniv (dc : DepsCache) (x : Str) :
    depsGet dc x ⊆ depsUniv dc := by
  intro s hs
  unfold depsGet at hs
  cases hl : assocLookup dc x with
  | none => rw [hl] at hs; cases hs
  | some l =>
    rw [hl] at hs
    simp only [Option.getD_some] at hs
    exact List.mem_flatten.mpr ⟨l, assocLookup_mem_values dc x l hl, hs⟩

theorem depsGet_length_le (dc : DepsCache) (x : Str) :
    (depsGet dc x).length ≤ (depsUniv dc).length := by
  unfold depsGet
  cases hl : assocLookup dc x with
  | none => simp
  | some l =>
    simp only [Option.getD_some]
    have hmem : l.length ∈ (dc.map Prod.snd).map List.length :=
      List.mem_map.mpr ⟨l, assocLookup_mem_values dc x l hl, rfl⟩
    calc l.length ≤ ((dc.map Prod.snd).map List.length).sum :=
          List.single_le_sum (fun n _ => Nat.zero_le n) _ hmem
      _ = (depsUniv dc).length := (List.length_flatten _).symm

theorem depsGet_ne_nil_mem_packages (dc : DepsCache) (y s : Str)
    (h : s ∈ depsGet dc y) : y ∈ packagesOf dc := by
  unfold depsGet at h
  cases hl : assocLookup dc y with
  | none => rw [hl] at h; cases h
  | some l => exact assocLookup_mem_keys dc y l hl

theorem bfs_sound (adj : Str → List Str) (P : Str → Prop)
    (hstep : ∀ x, P x → ∀ s ∈ adj x, P s) :
    ∀ (fuel : ℕ) (visited queue : List Str),
      (∀ v ∈ visited, P v) → (∀ q ∈ queue, P q) →
      ∀ x ∈ bfs adj fuel visited queue, P x := by
  intro fuel
  induction fuel with
  | zero =>
    intro visited queue hv hq x hx
    exact hv x hx
  | succ fuel ih =>
    intro visited queue hv hq x hx
    match queue with
    | [] => exact hv x hx
    | dep :: rest =>
      rw [bfs] at hx
      by_cases hdep : dep ∈ visited
      · rw [if_pos hdep] at hx
        exact ih visited rest hv (fun q hq' => hq q (List.mem_cons_of_mem _ hq')) x hx
      · rw [if_neg hdep] at hx
        refine ih _ _ ?_ ?_ x hx
        · intro v hv'
          rcases List.mem_cons.mp hv' with rfl | hv''
          · exact hq v (List.mem_cons_self _ _)
          · exact hv v hv''
        · intro q hq'
          rcases List.mem_append.mp hq' with h1 | h1
          · exact hq q (List.mem_cons_of_mem _ h1)
          · exact hstep dep (hq dep (List.mem_cons_self _ _)) q
              (List.mem_of_mem_filter h1)

theorem bfs_closure (adj : Str → List Str) (univ : List Str)
    (hadj : ∀ x, adj x ⊆ univ) (hlen : ∀ x, (adj x).length ≤ univ.length) :
    ∀ (fuel : ℕ) (visited queue : List Str),
      queue ⊆ univ →
      (univ.length + 1) * (univ.filter (fun x => decide (¬ x ∈ visited))).length
          + queue.length < fuel →
      (∀ v ∈ visited, ∀ s ∈ adj v, s ∈ visited ∨ s ∈ queue) →
      (∀ v ∈ visited, v ∈ bfs adj fuel visited queue)
      ∧ (∀ q ∈ queue, q ∈ bfs adj fuel visited queue)
      ∧ (∀ v, v ∈ bfs adj fuel visited queue →
          ∀ s ∈ adj v, s ∈ bfs adj fuel visited queue) := by
  intro fuel
  induction fuel with
  | zero =>
    intro visited queue hq hfuel hcl
    omega
  | succ fuel ih =>
    intro visited queue hq hfuel hcl
    match queue with
    | [] =>
      refine ⟨fun v hv => hv, fun q hq' => absurd hq' (List.not_mem_nil q), ?_⟩
      intro v hv s hs
      rcases hcl v hv s hs with h | h
      · exact h
      · cases h
    | dep :: rest =>
      by_cases hdep : dep ∈ visited
      · have heq : bfs adj (fuel + 1) visited (dep :: rest) = bfs adj fuel visited rest := by
          rw [bfs, if_pos hdep]
        have hrec := ih visited rest (fun q h => hq (List.mem_cons_of_mem _ h))
          (by simp only [List.length_cons] at hfuel; omega)
          (fun v hv s hs => by
            rcases hcl v hv s hs with h | h
            · exact Or.inl h
            · rcases List.mem_cons.mp h with rfl | h'
              · exact Or.inl hdep
              · exact Or.inr h')
        rw [heq]
        refine ⟨hrec.1, ?_, hrec.2.2⟩
        intro q hq'
        rcases List.mem_cons.mp hq' with rfl | h'
        · exact hrec.1 q hdep
        · exact hrec.2.1 q h'
      · have hdepu : dep ∈ univ := hq (List.mem_cons_self _ _)
        have heq : bfs adj (fuel + 1) visited (dep :: rest)
            = bfs adj fuel (dep :: visited)
                (rest ++ (adj dep).filter (fun s => decide (¬ s ∈ dep :: visited))) := by
          rw [bfs, if_neg hdep]
        -- the count of unvisited universe elements strictly drops
        have hsplit : univ.filter (fun x => decide (¬ x ∈ dep :: visited))
            = (univ.filter (fun x => decide (¬ x ∈ visited))).filter
                (fun x => decide (¬ x = dep)) := by
          rw [List.filter_filter]
          apply List.filter_congr
          intro x _
          by_cases h1 : x = dep <;> by_cases h2 : x ∈ visited <;>
            simp [h1, h2, List.mem_cons]
        have hcount : (univ.filter (fun x => decide (¬ x ∈ dep :: visited))).length
            < (univ.filter (fun x => decide (¬ x ∈ visited))).length := by
          rw [hsplit]
          refine List.length_filter_lt_length_iff_exists.mpr ⟨dep, ?_, by simp⟩
          exact List.mem_filter.mpr ⟨hdepu, by simp [hdep]⟩
        have hqlen : (rest ++ (adj dep).filter
              (fun s => decide (¬ s ∈ dep :: visited))).length
            ≤ rest.length + univ.length := by
          rw [List.length_append]
          have := List.length_filter_le (fun s => decide (¬ s ∈ dep :: visited)) (adj dep)
          have := hlen dep
          omega
        have hfuel' : (univ.length + 1) *
              (univ.filter (fun x => decide (¬ x ∈ dep :: visited))).length
            + (rest ++ (adj dep).filter
                (fun s => decide (¬ s ∈ dep :: visited))).length < fuel := by
          have h1 : (univ.length + 1) *
                (univ.filter (fun x => decide (¬ x ∈ dep :: visited))).length
                + (univ.length + 1)
              ≤ (univ.length + 1) *
                (univ.filter (fun x => decide (¬ x ∈ visited))).length := by
            have := Nat.mul_le_mul_left (univ.length + 1) hcount
            calc (univ.length + 1) *
                  (univ.filter (fun x => decide (¬ x ∈ dep :: visited))).length
                  + (univ.length + 1)
                = (univ.length + 1) *
                  ((univ.filter (fun x => decide (¬ x ∈ dep :: visited))).length + 1) := by
                  ring
              _ ≤ (univ.length + 1) *
                  (univ.filter (fun x => decide (¬ x ∈ visited))).length :=
                  Nat.mul_le_mul_left _ hcount
          simp only [List.length_cons] at hfuel
          omega
        have hrec := ih (dep :: visited)
          (rest ++ (adj dep).filter (fun s => decide (¬ s ∈ dep :: visited)))
          (by
            intro q hq'
            rcases List.mem_append.mp hq' with h1 | h1
            · exact hq (List.mem_cons_of_mem _ h1)
            · exact hadj dep (List.mem_of_mem_filter h1))
          hfuel'
          (by
            intro v hv s hs
            rcases List.mem_cons.mp hv with rfl | hv'
            · by_cases hsv : s ∈ v :: visited
              · exact Or.inl hsv
              · refine Or.inr (List.mem_append_right _ ?_)
                exact List.mem_filter.mpr ⟨hs, by simpa using hsv⟩
            · rcases hcl v hv' s hs with h | h
              · exact Or.inl (List.mem_cons_of_mem _ h)
              · rcases List.mem_cons.mp h with rfl | h'
                · exact Or.inl (List.mem_cons_self _ _)
                · exact Or.inr (List.mem_append_left _ h'))
        rw [heq]
        refine ⟨?_, ?_, hrec.2.2⟩
        · intro v hv
          exact hrec.1 v (List.mem_cons_of_mem _ hv)
        · intro q hq'
          rcases List.mem_cons.mp hq' with rfl | h'
          · exact hrec.1 q (List.mem_cons_self _ _)
          · exact hrec.2.1 q (List.mem_append_left _ h')

theorem mem_bfs_iff (adj : Str → List Str) (univ : List Str)
    (hadj : ∀ x, adj x ⊆ univ) (hlen : ∀ x, (adj x).length ≤ univ.length)
    (seed : List Str) (hseed : seed ⊆ univ) (x : Str) :
    x ∈ bfs adj (bfsFuel univ seed) [] seed ↔ ReachSet adj seed x := by
  constructor
  · intro hx
    exact bfs_sound adj (ReachSet adj seed)
      (fun y hy s hs => ReachSet.step hy hs) _ [] seed
      (fun v hv => absurd hv (List.not_mem_nil v))
      (fun q hq => ReachSet.base hq) x hx
  · intro hx
    have hfuel : (univ.length + 1) *
          (univ.filter (fun y => decide (¬ y ∈ ([] : List Str)))).length
        + seed.length < bfsFuel univ seed := by
      have : univ.filter (fun y => decide (¬ y ∈ ([] : List Str))) = univ := by
        apply List.filter_eq_self.mpr
        intro a _
        simp
      rw [this]
      unfold bfsFuel
      omega
    have hrec := bfs_closure adj univ hadj hlen (bfsFuel univ seed) [] seed hseed hfuel
      (fun v hv => absurd hv (List.not_mem_nil v))
    induction hx with
    | base h => exact hrec.2.1 _ h
    | step hy hs ih => exact hrec.2.2 _ ih _ hs

theorem get_dependencies_nonrec (dc : DepsCache) (pid : Str) (h : pid ∈ packagesOf dc) :
    get_dependencies dc pid false = depsGet dc pid := by
  unfold get_dependencies
  rw [if_neg (not_not_intro h), if_pos (by simp)]

theorem mem_get_dependencies_rec (dc : DepsCache) (pid : Str) (h : pid ∈ packagesOf dc)
    (x : Str) :
    x ∈ get_dependencies dc pid true ↔ ReachSet (depsGet dc) (depsGet dc pid) x := by
  unfold get_dependencies
  rw [if_neg (not_not_intro h), if_neg (by simp)]
  exact mem_bfs_iff (depsGet dc) (depsUniv dc) (depsGet_subset_depsUniv dc)
    (depsGet_length_le dc) (depsGet dc pid) (depsGet_subset_depsUniv dc pid) x

theorem rdepsGet_subset (dc : DepsCache) (d : Str) : rdepsGet dc d ⊆ packagesOf dc :=
  fun _ hx => List.mem_of_mem_filter hx

theorem rdepsGet_length_le (dc : DepsCache) (d : Str) :
    (rdepsGet dc d).length ≤ (packagesOf dc).length :=
  List.length_filter_le _ _

theorem rdepsSeed_subset (dc : DepsCache) (pid : Str) :
    rdepsSeed dc pid ⊆ packagesOf dc := by
  intro x hx
  unfold rdepsSeed at hx
  rcases List.mem_append.mp hx with h1 | h1
  · exact rdepsGet_subset dc pid h1
  · by_cases ha : ¬ latest_alias pid = []
    · rw [if_pos ha] at h1
      exact rdepsGet_subset dc _ h1
    · rw [if_neg ha] at h1
      cases h1

theorem mem_get_dependents_iff (dc : DepsCache) (pid x : Str) :
    x ∈ get_dependents dc pid ↔ ReachSet (rdepsGet dc) (rdepsSeed dc pid) x := by
  unfold get_dependents
  exact mem_bfs_iff (rdepsGet dc) (packagesOf dc) (rdepsGet_subset dc)
    (rdepsGet_length_le dc) (rdepsSeed dc pid) (rdepsSeed_subset dc pid) x

theorem mem_rdepsGet (dc : DepsCache) (d p : Str) :
    p ∈ rdepsGet dc d ↔ p ∈ packagesOf dc ∧ d ∈ depsGet dc p := by
  simp [rdepsGet]

theorem reachSet_trans_adj (adj : Str → List Str) (S : List Str) (y t : Str)
    (h1 : ReachSet adj S y) (h2 : ReachSet adj (adj y) t) : ReachSet adj S t := by
  induction h2 with
  | base h => exact ReachSet.step h1 h
  | step hz hs ih => exact ReachSet.step ih hs

theorem fwd_to_backward (dc : DepsCache) (a : Str) (ha : a ∈ packagesOf dc) :
    ∀ y, ReachSet (depsGet dc) (depsGet dc a) y →
      ∀ S, ReachSet (rdepsGet dc) S y → ReachSet (rdepsGet dc) S a := by
  intro y hy
  induction hy with
  | base h =>
    intro S hS
    exact ReachSet.step hS ((mem_rdepsGet dc _ a).mpr ⟨ha, h⟩)
  | step hz hs ih =>
    rename_i z w
    intro S hS
    have hzp : z ∈ packagesOf dc := depsGet_ne_nil_mem_packages dc z w hs
    exact ih S (ReachSet.step hS ((mem_rdepsGet dc w z).mpr ⟨hzp, hs⟩))

theorem backward_to_fwd (dc : DepsCache) (b : Str) :
    ∀ x, ReachSet (rdepsGet dc) (rdepsSeed dc b) x →
      ReachSet (depsGet dc) (depsGet dc x) b ∨
        (¬ latest_alias b = [] ∧
          ReachSet (depsGet dc) (depsGet dc x) (latest_alias b)) := by
  intro x hx
  induction hx with
  | base hmem =>
    unfold rdepsSeed at hmem
    rcases List.mem_append.mp hmem with h1 | h1
    · exact Or.inl (ReachSet.base ((mem_rdepsGet dc b _).mp h1).2)
    · by_cases ha : ¬ latest_alias b = []
      · rw [if_pos ha] at h1
        exact Or.inr ⟨ha, ReachSet.base ((mem_rdepsGet dc _ _).mp h1).2⟩
      · rw [if_neg ha] at h1
        cases h1
  | step hy hs ih =>
    rename_i y x'
    have hxy := (mem_rdepsGet dc y x').mp hs
    have hbase : ReachSet (depsGet dc) (depsGet dc x') y := ReachSet.base hxy.2
    rcases ih with h1 | ⟨hne, h1⟩
    · exact Or.inl (reachSet_trans_adj _ _ _ _ hbase h1)
    · exact Or.inr ⟨hne, reachSet_trans_adj _ _ _ _ hbase h1⟩

theorem fwd_reach_to_dependents (dc : DepsCache) (a b t : Str) (ha : a ∈ packagesOf dc)
    (hseed : rdepsGet dc t ⊆ rdepsSeed dc b)
    (h : ReachSet (depsGet dc) (depsGet dc a) t) :
    ReachSet (rdepsGet dc) (rdepsSeed dc b) a := by
  cases h with
  | base hmem =>
    exact ReachSet.base (hseed ((mem_rdepsGet dc t a).mpr ⟨ha, hmem⟩))
  | step hy hs =>
    rename_i y
    have hyp : y ∈ packagesOf dc := depsGet_ne_nil_mem_packages dc y _ hs
    exact fwd_to_backward dc a ha y hy _
      (ReachSet.base (hseed ((mem_rdepsGet dc t y).mpr ⟨hyp, hs⟩)))

theorem pyIsDigit_not_latest (v : Str) (h : pyIsDigit v = true) : ¬ v = str "latest" := by
  intro hc
  rw [hc] at h
  exact absurd h (by decide)

theorem bestLE_refl (b : BestVer) : bestLE b b := by
  cases b <;> simp [bestLE]

theorem bestLE_trans {a b c : BestVer} (h1 : bestLE a b) (h2 : bestLE b c) :
    bestLE a c := by
  cases a <;> cases b <;> cases c <;> simp_all [bestLE] <;> omega

theorem bestLE_inf_eq {b : BestVer} (h : bestLE BestVer.inf b) : b = BestVer.inf := by
  cases b
  · rfl
  · exact absurd h (by simp [bestLE])

theorem assocLookup_bestStep_mono (acc : List (Str × BestVer)) (dep base : Str)
    (b : BestVer) (h : assocLookup acc base = some b) :
    ∃ b', assocLookup (bestStep acc dep) base = some b' ∧ bestLE b b' := by
  unfold bestStep
  by_cases h3 : (splitDot dep).length < 3
  · rw [if_pos h3]
    exact ⟨b, h, bestLE_refl b⟩
  · rw [if_neg h3]
    by_cases hlat : verOf dep = str "latest"
    · rw [if_pos hlat]
      by_cases hb : baseOf dep = base
      · refine ⟨BestVer.inf, ?_, by cases b <;> simp [bestLE]⟩
        simp [assocLookup, hb]
      · exact ⟨b, by simp [assocLookup, hb, h], bestLE_refl b⟩
    · rw [if_neg hlat]
      by_cases hdig : pyIsDigit (verOf dep) = true
      · rw [if_pos hdig]
        by_cases hb : baseOf dep = base
        · rw [hb, h]
          cases b with
          | inf => exact ⟨BestVer.inf, h, bestLE_refl _⟩
          | fin w =>
            by_cases hw : w < pyInt (verOf dep)
            · refine ⟨BestVer.fin (pyInt (verOf dep)), ?_, ?_⟩
              · simp [assocLookup, hw]
              · simp only [bestLE]; omega
            · exact ⟨BestVer.fin w, by simp [hw, h], bestLE_refl _⟩
        · cases hacc : assocLookup acc (baseOf dep) with
          | none =>
            exact ⟨b, by simp [assocLookup, hb, h], bestLE_refl b⟩
          | some b0 =>
            cases b0 with
            | inf => exact ⟨b, h, bestLE_refl b⟩
            | fin w =>
              by_cases hw : w < pyInt (verOf dep)
              · exact ⟨b, by simp [assocLookup, hw, hb, h], bestLE_refl b⟩
              · exact ⟨b, by simp [hw, h], bestLE_refl b⟩
      · rw [if_neg hdig]
        exact ⟨b, h, bestLE_refl b⟩

theorem assocLookup_bestFold_mono (l : List Str) (acc : List (Str × BestVer))
    (base : Str) (b : BestVer) (h : assocLookup acc base = some b) :
    ∃ b', assocLookup (l.foldl bestStep acc) base = some b' ∧ bestLE b b' := by
  induction l generalizing acc b with
  | nil => exact ⟨b, h, bestLE_refl b⟩
  | cons d ds ih =>
    obtain ⟨b1, h1, hle1⟩ := assocLookup_bestStep_mono acc d base b h
    obtain ⟨b2, h2, hle2⟩ := ih (bestStep acc d) b1 h1
    exact ⟨b2, h2, bestLE_trans hle1 hle2⟩

theorem bestFold_latest (l : List Str) (e : Str) (he : e ∈ l)
    (h3 : ¬ (splitDot e).length < 3) (hv : verOf e = str "latest") :
    ∀ acc, assocLookup (l.foldl bestStep acc) (baseOf e) = some BestVer.inf := by
  induction l with
  | nil => cases he
  | cons d ds ih =>
    intro acc
    rcases List.mem_cons.mp he with rfl | he'
    · have hstep : assocLookup (bestStep acc e) (baseOf e) = some BestVer.inf := by
        unfold bestStep
        rw [if_neg h3, if_pos hv]
        simp [assocLookup]
      obtain ⟨b', hb', hle⟩ :=
        assocLookup_bestFold_mono ds (bestStep acc e) (baseOf e) BestVer.inf hstep
      rw [List.foldl_cons, hb', bestLE_inf_eq hle]
    · exact ih he' (bestStep acc d)

theorem bestFold_digit (l : List Str) (e : Str) (he : e ∈ l)
    (h3 : ¬ (splitDot e).length < 3) (hd : pyIsDigit (verOf e) = true) :
    ∀ acc, ∃ b, assocLookup (l.foldl bestStep acc) (baseOf e) = some b
      ∧ bestLE (BestVer.fin (pyInt (verOf e))) b := by
  induction l with
  | nil => cases he
  | cons d ds ih =>
    intro acc
    rcases List.mem_cons.mp he with rfl | he'
    · have hstep : ∃ b0, assocLookup (bestStep acc e) (baseOf e) = some b0
          ∧ bestLE (BestVer.fin (pyInt (verOf e))) b0 := by
        unfold bestStep
        rw [if_neg h3, if_neg (pyIsDigit_not_latest _ hd), if_pos hd]
        cases hacc : assocLookup acc (baseOf e) with
        | none =>
          exact ⟨BestVer.fin (pyInt (verOf e)), by simp [assocLookup], bestLE_refl _⟩
        | some b0 =>
          cases b0 with
          | inf => exact ⟨BestVer.inf, hacc, by simp [bestLE]⟩
          | fin w =>
            by_cases hw : w < pyInt (verOf e)
            · exact ⟨BestVer.fin (pyInt (verOf e)), by simp [assocLookup, hw], bestLE_refl _⟩
            · exact ⟨BestVer.fin w, by simp [hw, hacc], by simp only [bestLE]; omega⟩
      obtain ⟨b0, h0, hle0⟩ := hstep
      obtain ⟨b1, h1, hle1⟩ :=
        assocLookup_bestFold_mono ds (bestStep acc e) (baseOf e) b0 h0
      exact ⟨b1, by rw [List.foldl_cons]; exact h1, bestLE_trans hle0 hle1⟩
    · exact ih he' (bestStep acc d)

theorem walk_mem_not_sup (dc : DepsCache) (sup : Str → Bool) :
    ∀ (fuel depth : ℕ) (node : Str) (visited : List Str) (d : Str) (k : ℕ) (par : Str),
      (d, k, par) ∈ walk dc sup fuel depth node visited → sup d = false := by
  intro fuel
  induction fuel with
  | zero =>
    intro depth node visited d k par h
    cases h
  | succ fuel ih =>
    intro depth node visited d k par h
    rw [walk, List.mem_flatten] at h
    obtain ⟨l, hl, hdl⟩ := h
    rw [List.mem_map] at hl
    obtain ⟨dep, hdep, rfl⟩ := hl
    by_cases hsup : sup dep = true
    · rw [if_pos hsup] at hdl
      cases hdl
    · rw [if_neg hsup] at hdl
      rcases List.mem_cons.mp hdl with heq | hrec
      · obtain ⟨rfl, -⟩ := Prod.mk.injEq .. ▸ heq
        simpa using hsup
      · by_cases hv : dep ∈ visited
        · rw [if_pos hv] at hrec
          cases hrec
        · rw [if_neg hv] at hrec
          exact ih _ _ _ d k par hrec

theorem planFold_keep_inv (dc : DepsCache) (pid : Str) (l : List Str)
    (acc : List Str × List (Str × List Str) × List Str)
    (hacc : ∀ e ∈ acc.2.1,
      ¬ e.2 = [] ∧ ¬ pid ∈ e.2 ∧ ∀ x ∈ e.2, x ∈ get_dependents dc e.1) :
    ∀ e ∈ (l.foldl (planStep dc pid) acc).2.1,
      ¬ e.2 = [] ∧ ¬ pid ∈ e.2 ∧ ∀ x ∈ e.2, x ∈ get_dependents dc e.1 := by
  induction l generalizing acc with
  | nil => exact hacc
  | cons d ds ih =>
    rw [List.foldl_cons]
    refine ih (planStep dc pid acc d) ?_
    intro e he
    unfold planStep at he
    by_cases hd : d ∈ packagesOf dc
    · rw [if_neg (not_not_intro hd)] at he
      by_cases ho : ((get_dependents dc d).filter
          (fun x => decide (¬ x = pid))).isEmpty = true
      · rw [if_neg (not_not_intro ho)] at he
        exact hacc e he
      · rw [if_pos ho] at he
        rcases List.mem_append.mp he with h1 | h1
        · exact hacc e h1
        · have he2 := List.mem_singleton.mp h1
          subst he2
          refine ⟨?_, ?_, ?_⟩
          · intro hnil
            have hne : ¬ ((get_dependents dc d).filter
                (fun x => decide (¬ x = pid))) = [] := by
              intro h0
              rw [h0] at ho
              exact ho rfl
            obtain ⟨x, hx⟩ := List.exists_mem_of_ne_nil _ hne
            have hx' := (mem_sortedStrs _ x).mpr hx
            have hnil2 : sortedStrs ((get_dependents dc d).filter
                (fun x => decide (¬ x = pid))) = [] := hnil
            rw [hnil2] at hx'
            cases hx'
          · intro hpid
            have := List.mem_filter.mp ((mem_sortedStrs _ pid).mp hpid)
            simp at this
          · intro x hx
            exact List.mem_of_mem_filter ((mem_sortedStrs _ x).mp hx)
    · rw [if_pos hd] at he
      exact hacc e he

theorem option_eq_some_getD {α : Type} [Inhabited α] {o : Option α}
    (h : o.isSome = true) : o = some (o.getD default) := by
  cases o with
  | none => cases h
  | some v => rfl

theorem map_fst_map_pair {α : Type} (g : Str → α) (l : List Str) :
    (l.map (fun p => (p, g p))).map Prod.fst = l := by
  induction l with
  | nil => rfl
  | cons p ps ih =>
    simp only [List.map_cons]
    rw [ih]

theorem packagesOf_buildDepsCache (packages : List Str) (refs : Str → List Str) :
    packagesOf (buildDepsCache packages refs) = packages := by
  unfold packagesOf buildDepsCache
  exact map_fst_map_pair _ packages

theorem depsGet_buildDepsCache (packages : List Str) (refs : Str → List Str)
    (pid : Str) (h : pid ∈ packages) :
    depsGet (buildDepsCache packages refs) pid
      = dedupFirst (((refs pid).filter (fun r => decide (¬ r = pid))).map
          (fun r => resolve_ref r packages)) := by
  unfold depsGet buildDepsCache
  rw [assocLookup_map_self
    (fun p => dedupFirst (((refs p).filter (fun r => decide (¬ r = p))).map
      (fun r => resolve_ref r packages))) packages pid h]
  rfl

theorem mem_extract_meta_ne_self (pid : Str) (a : Archive) :
    ∀ x ∈ extract_refs_from_meta (some pid) a, ¬ x = pid := by
  intro x hx
  cases a with
  | unreadable => simp [extract_refs_from_meta, read_meta_json] at hx
  | readable meta textRefs =>
  cases meta with
  | none => simp [extract_refs_from_meta, read_meta_json] at hx
  | some m =>
    simp only [extract_refs_from_meta, read_meta_json] at hx
    by_cases hm : m.isEmpty = true
    · rw [if_pos hm] at hx
      cases hx
    · rw [if_neg hm] at hx
      generalize hrd : (assocLookup m (str "dependencies")).getD (Json.obj []) = rd at hx
      cases rd with
      | obj fields =>
        have := List.mem_filter.mp ((mem_dedupFirst _ x).mp hx)
        simpa using this.2
      | arr elems =>
        have := List.mem_filter.mp ((mem_dedupFirst _ x).mp hx)
        simpa using this.2
      | null => cases hx
      | bool b => cases hx
      | num n => cases hx
      | jstr s => cases hx

theorem extract_meta_filter_self (pid : Str) (a : Archive) :
    (extract_refs_from_meta (some pid) a).filter (fun r => decide (¬ r = pid))
      = extract_refs_from_meta (some pid) a := by
  apply List.filter_eq_self.mpr
  intro r hr
  simpa using mem_extract_meta_ne_self pid a r hr

theorem mem_resolveCandidates (ref : Str) (packages : List Str) (v : ℕ) (p : Str) :
    (v, p) ∈ resolveCandidates ref packages ↔
      p ∈ packages ∧ 3 ≤ (splitDot p).length ∧ baseOf p = baseOf ref
        ∧ pyIsDigit (verOf p) = true ∧ v = pyInt (verOf p) := by
  unfold resolveCandidates
  rw [List.mem_filterMap]
  constructor
  · rintro ⟨pid, hpid, hf⟩
    by_cases hl : (splitDot pid).length < 3
    · rw [if_pos hl] at hf
      cases hf
    · rw [if_neg hl] at hf
      by_cases hb : baseOf pid = baseOf ref ∧ pyIsDigit (verOf pid) = true
      · rw [if_pos hb] at hf
        injection hf with hf
        injection hf with hv hp
        subst hp
        exact ⟨hpid, by omega, hb.1, hb.2, hv.symm⟩
      · rw [if_neg hb] at hf
        cases hf
  · rintro ⟨hmem, hl, hb, hd, hv⟩
    refine ⟨p, hmem, ?_⟩
    rw [if_neg (by omega), if_pos ⟨hb, hd⟩, hv]

theorem cache_lookup_cons_self (row : CacheRow) (db : CacheDB) (mt' : ℚ) (sz' : ℕ) :
    cache_lookup (row :: db) row.filename mt' sz'
      = if |row.mtime - mt'| < 1/1000 ∧ row.size = sz' then some row.refs else none := by
  unfold cache_lookup
  rw [List.find?_cons_of_pos _ (by simp)]

/- ──────────────────────────  claim theorems  ────────────────────────── -/

/-- C8 (counterexample): the claim says `parse_id("v1.2.3.var")` and
    `parse_id("19.Foo.1.var")` return no id; `parse_package_name` in fact
    returns an id for both filenames, because it never validates the author
    token. -/
theorem parse_author_cx :
    ¬ parse_package_name (str "v1.2.3.var") = none
      ∧ ¬ parse_package_name (str "19.Foo.1.var") = none := by
  decide

/-- C8 (amended): `parse_package_name` accepts both filenames (it checks only
    the segment count and the version), returning `v1.2.3` and `19.Foo.1`; the
    author rules are enforced only by `is_valid_package_ref`, which rejects
    both of those ids. -/
theorem parse_author_amended :
    parse_package_name (str "v1.2.3.var") = some (str "v1.2.3")
      ∧ parse_package_name (str "19.Foo.1.var") = some (str "19.Foo.1")
      ∧ is_valid_package_ref (str "v1.2.3") = false
      ∧ is_valid_package_ref (str "19.Foo.1") = false := by
  decide

/-- C9 (code bug): the string `en.Foo.1` satisfies every rule the claim
    states — author of length 2, not all digits, no version-like prefix, not
    the reserved token `entries` — so the specified predicate accepts it, yet
    `is_valid_package_ref` returns false: the source's `author in ("entries")`
    is a substring test against the string `"entries"` (the tuple comma is
    missing), and `"en"` is a substring of `"entries"`. -/
theorem entries_substring_divergence :
    is_valid_ref_spec (str "en.Foo.1") = true
      ∧ is_valid_package_ref (str "en.Foo.1") = false := by
  decide

/-- C2 (counterexample): the claim says `DirectDeps(pid)` never contains
    `pid`; but with only `Bob.X.5` installed and its archive referencing
    `Bob.X.latest`, the resolver maps that non-self reference back to
    `Bob.X.5`, so the package's direct dependency set contains the package
    itself. -/
theorem direct_deps_self_cx :
    str "Bob.X.5" ∈ get_dependencies
      (buildDepsCache [str "Bob.X.5"] (fun _ => [str "Bob.X.latest"]))
      (str "Bob.X.5") false := by
  decide

/-- C2 (amended): only literal self-references are excluded when the direct
    dependency set is built; `pid` is a member of `DirectDeps(pid)` exactly
    when some extracted reference distinct from `pid` resolves to `pid` (for
    example `pid`'s own `latest` alias when `pid` is the highest installed
    version). -/
theorem direct_deps_self_iff (packages : List Str) (refs : Str → List Str) (pid : Str)
    (h : pid ∈ packages) :
    pid ∈ get_dependencies (buildDepsCache packages refs) pid false ↔
      ∃ r ∈ refs pid, ¬ r = pid ∧ resolve_ref r packages = pid := by
  rw [get_dependencies_nonrec _ _ (by rw [packagesOf_buildDepsCache]; exact h)]
  rw [depsGet_buildDepsCache packages refs pid h]
  rw [mem_dedupFirst]
  simp only [List.mem_map, List.mem_filter, decide_eq_true_eq]
  constructor
  · rintro ⟨r, ⟨hr, hne⟩, hres⟩
    exact ⟨r, hr, hne, hres⟩
  · rintro ⟨r, hr, hne, hres⟩
    exact ⟨r, ⟨hr, hne⟩, hres⟩

/-- C2 (witness): the amended equivalence at the one-package index whose sole
    package references its own `latest` alias. -/
theorem direct_deps_self_iff_witness :
    str "Bob.X.5" ∈ get_dependencies
        (buildDepsCache [str "Bob.X.5"] (fun _ => [str "Bob.X.latest"]))
        (str "Bob.X.5") false ↔
      ∃ r ∈ (fun _ : Str => [str "Bob.X.latest"]) (str "Bob.X.5"),
        ¬ r = str "Bob.X.5" ∧ resolve_ref r [str "Bob.X.5"] = str "Bob.X.5" :=
  direct_deps_self_iff [str "Bob.X.5"] (fun _ => [str "Bob.X.latest"]) (str "Bob.X.5")
    (by decide)

/-- C10 (counterexample): the claim says no cache row is written for an
    archive whose ZIP cannot be opened; in fact `__init__` calls
    `cache.store(path, refs)` on the freshly scanned (empty) refs, so after
    indexing an unreadable archive on a cache miss the database holds a row
    for its filename. -/
theorem unreadable_cache_row_cx :
    ¬ (indexArchive [] (str "Aa.P.1") Archive.unreadable (str "Aa.P.1.var") 0 7).2
      = [] := by
  have hstep : (indexArchive [] (str "Aa.P.1") Archive.unreadable (str "Aa.P.1.var") 0 7).2
      = cache_store [] (str "Aa.P.1.var") 0 7 [] := rfl
  rw [hstep]
  unfold cache_store
  simp

/-- C10 (amended): when an archive cannot be opened or read, the failure is
    swallowed and the archive is indexed with an empty reference set, and on a
    cache miss the cache row for that archive IS written — with the empty
    reference set at the archive's current `(mtime, size)`. -/
theorem unreadable_archive_amended (cache : CacheDB) (pid name : Str) (mt : ℚ) (sz : ℕ)
    (hmiss : cache_lookup cache name mt sz = none) :
    indexArchive cache pid Archive.unreadable name mt sz
      = ([], cache_store cache name mt sz []) := by
  unfold indexArchive
  rw [hmiss]
  rfl

/-- C10 (witness): the amended behaviour at a concrete unreadable archive and
    an empty cache. -/
theorem unreadable_archive_amended_witness :
    indexArchive [] (str "Aa.P.1") Archive.unreadable (str "Aa.P.1.var") 0 7
      = ([], cache_store [] (str "Aa.P.1.var") 0 7 []) :=
  unreadable_archive_amended [] (str "Aa.P.1") (str "Aa.P.1.var") 0 7 rfl

/-- C7: after `store(p, refs)` the cache holds a row whose `lookup` at the
    unchanged `(mtime, size)` returns exactly the set `refs`, and any later
    `lookup` whose mtime differs from the stored value by more than 1 ms, or
    whose size differs, misses. -/
theorem cache_roundtrip (db : CacheDB) (name : Str) (mt : ℚ) (sz : ℕ)
    (refs : List Str) :
    (∃ l, cache_lookup (cache_store db name mt sz refs) name mt sz = some l
        ∧ ∀ x, x ∈ l ↔ x ∈ refs)
    ∧ (∀ (mt' : ℚ) (sz' : ℕ), (1/1000 : ℚ) < |mt' - mt| ∨ ¬ sz' = sz →
        cache_lookup (cache_store db name mt sz refs) name mt' sz' = none) := by
  constructor
  · refine ⟨sortedStrs refs, ?_, fun x => mem_sortedStrs refs x⟩
    show cache_lookup
        ((⟨name, mt, sz, sortedStrs refs⟩ : CacheRow) ::
          db.filter (fun r => decide (¬ r.filename = name))) name mt sz
      = some (sortedStrs refs)
    rw [cache_lookup_cons_self]
    rw [if_pos ⟨show |mt - mt| < 1/1000 by rw [sub_self, abs_zero]; norm_num, rfl⟩]
  · intro mt' sz' h
    show cache_lookup
        ((⟨name, mt, sz, sortedStrs refs⟩ : CacheRow) ::
          db.filter (fun r => decide (¬ r.filename = name))) name mt' sz'
      = none
    rw [cache_lookup_cons_self]
    rw [if_neg ?_]
    rintro ⟨h1, h2⟩
    rcases h with ha | hb
    · have h1' : |mt' - mt| < 1/1000 := by rw [abs_sub_comm]; exact h1
      exact absurd h1' (not_lt.mpr (le_of_lt ha))
    · exact hb h2.symm

/-- C6: on a cache miss, the reference set indexed for an archive equals the
    manifest-extracted references (the extraction itself already removes the
    package's own id) whenever that set is non-empty; text-entry extraction
    (minus the own id) is used exactly when manifest extraction yields no
    references; and a manifest with a present but empty `dependencies` object
    yields no manifest references, hence falls through to text scraping. -/
theorem extraction_precedence (cache : CacheDB) (pid : Str) (a : Archive)
    (name : Str) (mt : ℚ) (sz : ℕ)
    (hmiss : cache_lookup cache name mt sz = none) :
    (¬ extract_refs_from_meta (some pid) a = [] →
      (indexArchive cache pid a name mt sz).1 = extract_refs_from_meta (some pid) a)
    ∧ (extract_refs_from_meta (some pid) a = [] →
      (indexArchive cache pid a name mt sz).1
        = (extract_refs_from_var (some pid) a).filter (fun r => decide (¬ r = pid)))
    ∧ (∀ (fields : List (Str × Json)) (textRefs : List Str),
        a = Archive.readable (some fields) textRefs →
        assocLookup fields (str "dependencies") = some (Json.obj []) →
        extract_refs_from_meta (some pid) a = []) := by
  refine ⟨?_, ?_, ?_⟩
  · intro hne
    unfold indexArchive
    rw [hmiss]
    show (if ¬ (extract_refs_from_meta (some pid) a).isEmpty = true
          then (extract_refs_from_meta (some pid) a).filter (fun r => decide (¬ r = pid))
          else (extract_refs_from_var (some pid) a).filter (fun r => decide (¬ r = pid)))
        = extract_refs_from_meta (some pid) a
    rw [if_pos (fun hc => hne (List.isEmpty_iff.mp hc))]
    exact extract_meta_filter_self pid a
  · intro hempty
    unfold indexArchive
    rw [hmiss]
    show (if ¬ (extract_refs_from_meta (some pid) a).isEmpty = true
          then (extract_refs_from_meta (some pid) a).filter (fun r => decide (¬ r = pid))
          else (extract_refs_from_var (some pid) a).filter (fun r => decide (¬ r = pid)))
        = (extract_refs_from_var (some pid) a).filter (fun r => decide (¬ r = pid))
    rw [if_neg (not_not_intro (List.isEmpty_iff.mpr hempty))]
  · intro fields textRefs ha hdep
    subst ha
    simp only [extract_refs_from_meta, read_meta_json]
    have hne : ¬ fields.isEmpty = true := by
      intro h0
      rw [List.isEmpty_iff.mp h0] at hdep
      simp [assocLookup] at hdep
    rw [if_neg hne, hdep]
    rfl

/-- C6 (witness): the precedence statement at a concrete archive whose
    manifest declares one dependency, over an empty cache. -/
theorem extraction_precedence_witness :
    (¬ extract_refs_from_meta (some (str "Aa.P.1")) exArchiveC6 = [] →
      (indexArchive [] (str "Aa.P.1") exArchiveC6 (str "Aa.P.1.var") 0 9).1
        = extract_refs_from_meta (some (str "Aa.P.1")) exArchiveC6)
    ∧ (extract_refs_from_meta (some (str "Aa.P.1")) exArchiveC6 = [] →
      (indexArchive [] (str "Aa.P.1") exArchiveC6 (str "Aa.P.1.var") 0 9).1
        = (extract_refs_from_var (some (str "Aa.P.1")) exArchiveC6).filter
            (fun r => decide (¬ r = str "Aa.P.1")))
    ∧ (∀ (fields : List (Str × Json)) (textRefs : List Str),
        exArchiveC6 = Archive.readable (some fields) textRefs →
        assocLookup fields (str "dependencies") = some (Json.obj []) →
        extract_refs_from_meta (some (str "Aa.P.1")) exArchiveC6 = []) :=
  extraction_precedence [] (str "Aa.P.1") exArchiveC6 (str "Aa.P.1.var") 0 9 rfl

/-- C4 (counterexample): the claim's final sentence fails when the alias is
    itself an index key — `Bob.X.5` is the (unique) installed digit version of
    the base, yet `resolve_ref("Bob.X.latest")` returns the installed key
    `Bob.X.latest`, not `Bob.X.5`. -/
theorem resolve_latest_cx :
    resolve_ref (str "Bob.X.latest") [str "Bob.X.latest", str "Bob.X.5"]
        = str "Bob.X.latest"
      ∧ str "Bob.X.5" ∈ [str "Bob.X.latest", str "Bob.X.5"]
      ∧ baseOf (str "Bob.X.5") = baseOf (str "Bob.X.latest")
      ∧ pyIsDigit (verOf (str "Bob.X.5")) = true
      ∧ (∀ p ∈ [str "Bob.X.latest", str "Bob.X.5"],
          pyIsDigit (verOf p) = true → pyInt (verOf p) ≤ 5)
      ∧ ¬ resolve_ref (str "Bob.X.latest") [str "Bob.X.latest", str "Bob.X.5"]
          = str "Bob.X.5" := by
  decide

/-- C4 (amended): for a reference with at least three dot-segments,
    `resolve_ref` returns the reference itself when it is an index key;
    otherwise, when some installed id shares the reference's base and carries
    a digit version, it returns an installed id of that base whose integer
    version is maximal among them; otherwise it returns the reference
    unchanged.  In particular `resolve_ref(base + ".latest")` yields an
    installed id of maximal integer version whenever such ids exist and
    `base + ".latest"` is not itself an index key. -/
theorem resolve_ref_correct (ref : Str) (packages : List Str)
    (h3 : 3 ≤ (splitDot ref).length) :
    (ref ∈ packages → resolve_ref ref packages = ref)
    ∧ ((¬ ref ∈ packages) →
        (∃ p ∈ packages, 3 ≤ (splitDot p).length ∧ baseOf p = baseOf ref
            ∧ pyIsDigit (verOf p) = true) →
        (resolve_ref ref packages ∈ packages
          ∧ baseOf (resolve_ref ref packages) = baseOf ref
          ∧ pyIsDigit (verOf (resolve_ref ref packages)) = true
          ∧ ∀ p ∈ packages, 3 ≤ (splitDot p).length → baseOf p = baseOf ref →
              pyIsDigit (verOf p) = true →
              pyInt (verOf p) ≤ pyInt (verOf (resolve_ref ref packages))))
    ∧ ((¬ ref ∈ packages) →
        (∀ p ∈ packages, 3 ≤ (splitDot p).length → baseOf p = baseOf ref →
          ¬ pyIsDigit (verOf p) = true) →
        resolve_ref ref packages = ref) := by
  refine ⟨?_, ?_, ?_⟩
  · intro hm
    unfold resolve_ref
    rw [if_neg (by omega), if_pos hm]
  · rintro hnm ⟨p, hp, hpl, hpb, hpd⟩
    have hc : (pyInt (verOf p), p) ∈ resolveCandidates ref packages :=
      (mem_resolveCandidates ref packages _ _).mpr ⟨hp, hpl, hpb, hpd, rfl⟩
    unfold resolve_ref
    rw [if_neg (by omega), if_neg hnm]
    cases hcand : resolveCandidates ref packages with
    | nil =>
      rw [hcand] at hc
      cases hc
    | cons c0 cs =>
      dsimp only
      have htrans : ∀ a b c : ℕ × Str,
          (fun a b : ℕ × Str => decide (b.1 ≤ a.1)) a b = true →
          (fun a b : ℕ × Str => decide (b.1 ≤ a.1)) b c = true →
          (fun a b : ℕ × Str => decide (b.1 ≤ a.1)) a c = true := by
        intro a b c h1 h2
        simp only [decide_eq_true_eq] at h1 h2 ⊢
        omega
      have htot : ∀ a b : ℕ × Str,
          (fun a b : ℕ × Str => decide (b.1 ≤ a.1)) a b = true ∨
          (fun a b : ℕ × Str => decide (b.1 ≤ a.1)) b a = true := by
        intro a b
        simp only [decide_eq_true_eq]
        omega
      have hpw := pairwise_pySorted (fun a b : ℕ × Str => decide (b.1 ≤ a.1))
        htrans htot (c0 :: cs)
      have hc0 : c0 ∈ pySorted (fun a b : ℕ × Str => decide (b.1 ≤ a.1)) (c0 :: cs) :=
        (mem_pySorted _ _ c0).mpr (List.mem_cons_self _ _)
      cases hS : pySorted (fun a b : ℕ × Str => decide (b.1 ≤ a.1)) (c0 :: cs) with
      | nil =>
        rw [hS] at hc0
        cases hc0
      | cons h0 t0 =>
        dsimp only [List.headD]
        have hh0 : h0 ∈ resolveCandidates ref packages := by
          rw [hcand]
          exact (mem_pySorted _ _ h0).mp (hS ▸ List.mem_cons_self h0 t0)
        obtain ⟨v0, p0⟩ := h0
        obtain ⟨hh0m, hh0l, hh0b, hh0d, hh0v⟩ :=
          (mem_resolveCandidates ref packages v0 p0).mp hh0
        have hmax : ∀ x ∈ resolveCandidates ref packages, x.1 ≤ v0 := by
          intro x hx
          have hxS : x ∈ (v0, p0) :: t0 := by
            rw [← hS]
            exact (mem_pySorted _ _ x).mpr (hcand ▸ hx)
          rcases List.mem_cons.mp hxS with rfl | hxt
          · exact le_refl _
          · have := (List.pairwise_cons.mp (hS ▸ hpw)).1 x hxt
            simpa using this
        refine ⟨hh0m, hh0b, hh0d, ?_⟩
        intro p hp hpl hpb hpd
        have hmem : (pyInt (verOf p), p) ∈ resolveCandidates ref packages :=
          (mem_resolveCandidates ref packages _ _).mpr ⟨hp, hpl, hpb, hpd, rfl⟩
        have := hmax _ hmem
    -- the head pair carries the integer version of its id
        rw [hh0v] at this
        exact this
  · intro hnm hnone
    have hc : resolveCandidates ref packages = [] := by
      unfold resolveCandidates
      rw [List.filterMap_eq_nil_iff]
      intro pid hpid
      by_cases hl : (splitDot pid).length < 3
      · rw [if_pos hl]
      · rw [if_neg hl]
        rw [if_neg ?_]
        rintro ⟨hb, hd⟩
        exact hnone pid hpid (by omega) hb hd
    unfold resolve_ref
    rw [if_neg (by omega), if_neg hnm, hc]

/-- C4 (witness): the amended resolver contract at the index
    `[Bob.Y.2, Bob.Y.10]` and the reference `Bob.Y.latest`. -/
theorem resolve_ref_correct_witness :
    (str "Bob.Y.latest" ∈ [str "Bob.Y.2", str "Bob.Y.10"] →
      resolve_ref (str "Bob.Y.latest") [str "Bob.Y.2", str "Bob.Y.10"]
        = str "Bob.Y.latest")
    ∧ ((¬ str "Bob.Y.latest" ∈ [str "Bob.Y.2", str "Bob.Y.10"]) →
        (∃ p ∈ [str "Bob.Y.2", str "Bob.Y.10"], 3 ≤ (splitDot p).length
            ∧ baseOf p = baseOf (str "Bob.Y.latest")
            ∧ pyIsDigit (verOf p) = true) →
        (resolve_ref (str "Bob.Y.latest") [str "Bob.Y.2", str "Bob.Y.10"]
            ∈ [str "Bob.Y.2", str "Bob.Y.10"]
          ∧ baseOf (resolve_ref (str "Bob.Y.latest") [str "Bob.Y.2", str "Bob.Y.10"])
              = baseOf (str "Bob.Y.latest")
          ∧ pyIsDigit (verOf (resolve_ref (str "Bob.Y.latest")
              [str "Bob.Y.2", str "Bob.Y.10"])) = true
          ∧ ∀ p ∈ [str "Bob.Y.2", str "Bob.Y.10"], 3 ≤ (splitDot p).length →
              baseOf p = baseOf (str "Bob.Y.latest") →
              pyIsDigit (verOf p) = true →
              pyInt (verOf p) ≤ pyInt (verOf (resolve_ref (str "Bob.Y.latest")
                [str "Bob.Y.2", str "Bob.Y.10"]))))
    ∧ ((¬ str "Bob.Y.latest" ∈ [str "Bob.Y.2", str "Bob.Y.10"]) →
        (∀ p ∈ [str "Bob.Y.2", str "Bob.Y.10"], 3 ≤ (splitDot p).length →
          baseOf p = baseOf (str "Bob.Y.latest") →
          ¬ pyIsDigit (verOf p) = true) →
        resolve_ref (str "Bob.Y.latest") [str "Bob.Y.2", str "Bob.Y.10"]
          = str "Bob.Y.latest") :=
  resolve_ref_correct (str "Bob.Y.latest") [str "Bob.Y.2", str "Bob.Y.10"] (by decide)

/-- C1 (counterexample): with the chain `Aa.P.1 → Bb.X.1 → Cc.D.1`,
    `plan_delete("Aa.P.1", with_deps=true)` keeps `Cc.D.1` because of its
    dependent `Bb.X.1` — but `Bb.X.1` is itself in `to_delete`, so the kept
    entry has no dependent outside the deletion set, contradicting the
    claim. -/
theorem plan_delete_keep_deps_cx :
    ((plan_delete chainDC (fun _ => 0) (str "Aa.P.1") true).isSome = true)
    ∧ ¬ ∀ e ∈ ((plan_delete chainDC (fun _ => 0) (str "Aa.P.1") true).getD
          default).keep_deps,
        ∃ x ∈ e.2,
          ¬ x ∈ ((plan_delete chainDC (fun _ => 0) (str "Aa.P.1") true).getD
            default).to_delete := by
  decide

/-- C1 (amended): every entry `(d, others)` of `plan.keep_deps` has a
    non-empty `others` list, the target `pid` is not among them, and each
    listed id is a dependent of `d`; a listed dependent may however itself be
    scheduled in `to_delete`. -/
theorem plan_delete_keep_deps_amended (dc : DepsCache) (sz : Str → ℕ) (pid : Str)
    (plan : DeletePlan) (h : plan_delete dc sz pid true = some plan) :
    ∀ e ∈ plan.keep_deps,
      ¬ e.2 = [] ∧ ¬ pid ∈ e.2 ∧ ∀ x ∈ e.2, x ∈ get_dependents dc e.1 := by
  unfold plan_delete at h
  by_cases hpid : pid ∈ packagesOf dc
  · rw [if_neg (not_not_intro hpid)] at h
    injection h with h
    subst h
    intro e he
    exact planFold_keep_inv dc pid (get_dependencies dc pid true) ([pid], [], [])
      (fun e' he' => absurd he' (List.not_mem_nil e')) e he
  · rw [if_pos hpid] at h
    cases h

/-- C1 (witness): the amended property at the shared-library index, at the
    kept entry `(Ll.Lib.1, [Bb.Q.1])`. -/
theorem plan_delete_keep_deps_amended_witness :
    ¬ ((str "Ll.Lib.1", [str "Bb.Q.1"]) : Str × List Str).2 = []
    ∧ ¬ (str "Aa.P.1") ∈ ((str "Ll.Lib.1", [str "Bb.Q.1"]) : Str × List Str).2
    ∧ ∀ x ∈ ((str "Ll.Lib.1", [str "Bb.Q.1"]) : Str × List Str).2,
        x ∈ get_dependents sharedDC ((str "Ll.Lib.1", [str "Bb.Q.1"]) : Str × List Str).1 :=
  plan_delete_keep_deps_amended sharedDC (fun _ => 0) (str "Aa.P.1")
    ((plan_delete sharedDC (fun _ => 0) (str "Aa.P.1") true).getD default)
    (option_eq_some_getD (by decide))
    (str "Ll.Lib.1", [str "Bb.Q.1"])
    (by decide)

/-- C5: every triple `(dep, depth, parent)` that `get_dep_tree` emits whose
    dep carries a digit version `v` is such that no element of the transitive
    closure of `pid` shares the dep's base with version `latest` or with a
    digit version strictly greater than `v`; and a `latest`-versioned dep is
    never skipped by the supersession pruning. -/
theorem dep_tree_supersession (dc : DepsCache) (pid : Str) (maxDepth : ℕ)
    (d : Str) (depth : ℕ) (parent : Str)
    (h : (d, depth, parent) ∈ get_dep_tree dc pid maxDepth) :
    (¬ (splitDot d).length < 3 → pyIsDigit (verOf d) = true →
      ∀ e ∈ get_dependencies dc pid true, ¬ (splitDot e).length < 3 →
        baseOf e = baseOf d →
        ¬ verOf e = str "latest"
          ∧ (pyIsDigit (verOf e) = true → pyInt (verOf e) ≤ pyInt (verOf d)))
    ∧ (∀ e, verOf e = str "latest" →
        is_superseded (bestVersionOf (get_dependencies dc pid true)) e = false) := by
  have hsup : is_superseded (bestVersionOf (get_dependencies dc pid true)) d = false := by
    unfold get_dep_tree at h
    exact walk_mem_not_sup dc _ maxDepth 1 pid [pid] d depth parent h
  constructor
  · intro h3 hd e he h3e hbase
    unfold is_superseded at hsup
    rw [if_neg h3, if_neg (pyIsDigit_not_latest _ hd), if_neg (not_not_intro hd)] at hsup
    constructor
    · intro hlat
      have hinf := bestFold_latest (get_dependencies dc pid true) e he h3e hlat []
      unfold bestVersionOf at hsup
      rw [hbase] at hinf
      rw [hinf] at hsup
      simp [ltBest] at hsup
    · intro hde
      obtain ⟨b, hb, hble⟩ :=
        bestFold_digit (get_dependencies dc pid true) e he h3e hde []
      unfold bestVersionOf at hsup
      rw [hbase] at hb
      rw [hb] at hsup
      cases b with
      | inf => simp [ltBest] at hsup
      | fin m =>
        simp only [ltBest, decide_eq_false_iff_not, not_lt] at hsup
        simp only [bestLE] at hble
        omega
  · intro e hve
    unfold is_superseded
    by_cases h3 : (splitDot e).length < 3
    · rw [if_pos h3]
    · rw [if_neg h3, if_pos hve]

/-- C5 (witness): the supersession property at the emitted triple
    `(Cc.R.3, 1, Aa.P.1)` of the two-version example index. -/
theorem dep_tree_supersession_witness :
    (¬ (splitDot (str "Cc.R.3")).length < 3 → pyIsDigit (verOf (str "Cc.R.3")) = true →
      ∀ e ∈ get_dependencies versionsDC (str "Aa.P.1") true,
        ¬ (splitDot e).length < 3 →
        baseOf e = baseOf (str "Cc.R.3") →
        ¬ verOf e = str "latest"
          ∧ (pyIsDigit (verOf e) = true → pyInt (verOf e) ≤ pyInt (verOf (str "Cc.R.3"))))
    ∧ (∀ e, verOf e = str "latest" →
        is_superseded (bestVersionOf (get_dependencies versionsDC (str "Aa.P.1") true)) e
          = false) :=
  dep_tree_supersession versionsDC (str "Aa.P.1") 6 (str "Cc.R.3") 1 (str "Aa.P.1")
    (by decide)

/-- C3 (counterexample): in the index where the alias `Bob.X.latest` is itself
    installed and `Aa.P.1` references it, `Aa.P.1` IS a dependent of
    `Bob.X.5` (via the alias seed of the reverse traversal) although
    `Bob.X.5` is NOT in the forward closure of `Aa.P.1` — the claimed
    equivalence fails. -/
theorem dependents_forward_cx :
    ¬ ((str "Bob.X.5" ∈ get_dependencies aliasDC (str "Aa.P.1") true) ↔
        (str "Aa.P.1" ∈ get_dependents aliasDC (str "Bob.X.5"))) := by
  decide

/-- C3 (amended): for installed `a` and `b`, `a ∈ get_dependents(b)` holds iff
    `b` itself, or the `latest` alias of `b` (when `b` has a digit version),
    lies in `get_dependencies(a, recursive=True)`.  The claimed plain
    equivalence with `b ∈ forward(a)` holds whenever the alias node is not
    reachable without `b`. -/
theorem dependents_forward_amended (dc : DepsCache) (a b : Str)
    (ha : a ∈ packagesOf dc) (hb : b ∈ packagesOf dc) :
    a ∈ get_dependents dc b ↔
      (b ∈ get_dependencies dc a true
        ∨ (¬ latest_alias b = []
            ∧ latest_alias b ∈ get_dependencies dc a true)) := by
  rw [mem_get_dependents_iff, mem_get_dependencies_rec dc a ha,
    mem_get_dependencies_rec dc a ha]
  constructor
  · exact backward_to_fwd dc b a
  · rintro (h1 | ⟨hne, h1⟩)
    · refine fwd_reach_to_dependents dc a b b ha ?_ h1
      intro x hx
      unfold rdepsSeed
      exact List.mem_append_left _ hx
    · refine fwd_reach_to_dependents dc a b (latest_alias b) ha ?_ h1
      intro x hx
      unfold rdepsSeed
      refine List.mem_append_right _ ?_
      rw [if_pos hne]
      exact hx

/-- C3 (witness): the amended equivalence at the alias example index, for
    `a = Aa.P.1`, `b = Bob.X.5`. -/
theorem dependents_forward_amended_witness :
    str "Aa.P.1" ∈ get_dependents aliasDC (str "Bob.X.5") ↔
      (str "Bob.X.5" ∈ get_dependencies aliasDC (str "Aa.P.1") true
        ∨ (¬ latest_alias (str "Bob.X.5") = []
            ∧ latest_alias (str "Bob.X.5") ∈ get_dependencies aliasDC (str "Aa.P.1") true)) :=
  dependents_forward_amended aliasDC (str "Aa.P.1") (str "Bob.X.5")
    (by decide) (by decide)

end VaMScanner
